import Mathlib

/-!
Verification development for the diffsptk repository.

The four modules present in the source tree (`decimate.py`, `dequantize.py`,
`spec.py`, `wht.py`) are embedded directly.  The MLSA synthesis-filter core
(`mglsadf`) is not part of the source tree (only its tests are), so that part
is modelled from the specification; each such definition carries a doc comment
starting with `Modelled from the spec:`.

All signal arithmetic is embedded over `ℚ` (exact rational arithmetic standing
for the library's real/floating computation); the transcendental gain map of
the gain controller is embedded over `ℝ`.
-/

/-- Sum of `f 0 + f 1 + ... + f (n-1)`, the embedding of the finite
accumulation loops of the source. -/
def sumR (n : ℕ) (f : ℕ → ℚ) : ℚ := ((List.range n).map f).sum

theorem sumR_zero (f : ℕ → ℚ) : sumR 0 f = 0 := rfl

theorem sumR_succ (n : ℕ) (f : ℕ → ℚ) : sumR (n + 1) f = sumR n f + f n := by
  simp [sumR, List.range_succ]

theorem sumR_congr {n : ℕ} {f g : ℕ → ℚ} (h : ∀ m < n, f m = g m) :
    sumR n f = sumR n g := by
  induction n with
  | zero => rfl
  | succ k ih =>
    rw [sumR_succ, sumR_succ, ih (fun m hm => h m (by omega)), h k (by omega)]

theorem sumR_eq_zero {n : ℕ} {f : ℕ → ℚ} (h : ∀ m < n, f m = 0) : sumR n f = 0 := by
  induction n with
  | zero => rfl
  | succ k ih =>
    rw [sumR_succ, ih (fun m hm => h m (by omega)), h k (by omega), add_zero]

theorem sumR_mul_left (n : ℕ) (c : ℚ) (f : ℕ → ℚ) :
    sumR n (fun m => c * f m) = c * sumR n f := by
  induction n with
  | zero => simp [sumR_zero]
  | succ k ih => rw [sumR_succ, sumR_succ, ih, mul_add]

namespace Decimation

/-- Embedding of `torch.index_select(x, dim, torch.arange(start, T, period))`
along the selected dimension: starting with a skip counter `k`, keep the
element when the counter hits `0` and reset it to `period - 1`, else decrement. -/
def takeEveryAux {α : Type} (period : ℕ) : ℕ → List α → List α
  | _, [] => []
  | 0, a :: l => a :: takeEveryAux period (period - 1) l
  | k + 1, _ :: l => takeEveryAux period k l

/-- `Decimation._forward`: select indices `start, start+period, ...` of `x`. -/
def forward {α : Type} (period start : ℕ) (x : List α) : List α :=
  takeEveryAux period start x

/-- `Decimation.__init__`: stores the parameters, then asserts
`1 <= period` and `0 <= start`. -/
def init (period start : ℤ) : Except String (ℤ × ℤ) :=
  if 1 ≤ period then
    if 0 ≤ start then .ok (period, start) else .error "assert 0 <= self.start"
  else .error "assert 1 <= self.period"

theorem takeEveryAux_getElem? {α : Type} (period : ℕ) (hP : 1 ≤ period) :
    ∀ (l : List α) (k i : ℕ), (takeEveryAux period k l)[i]? = l[k + i * period]? := by
  intro l
  induction l with
  | nil => intro k i; simp [takeEveryAux]
  | cons a t ih =>
    intro k i
    cases k with
    | zero =>
      cases i with
      | zero => simp [takeEveryAux]
      | succ j =>
        rw [show (0 + (j + 1) * period) = ((period - 1) + j * period) + 1 by
          rw [Nat.succ_mul]; omega]
        rw [List.getElem?_cons_succ]
        simpa [takeEveryAux] using ih (period - 1) j
    | succ k' =>
      rw [show ((k' + 1) + i * period) = (k' + i * period) + 1 by omega]
      rw [List.getElem?_cons_succ]
      simpa [takeEveryAux] using ih k' i

theorem takeEveryAux_length {α : Type} (period : ℕ) (hP : 1 ≤ period) :
    ∀ (l : List α) (k : ℕ),
      (takeEveryAux period k l).length = (l.length - k + (period - 1)) / period := by
  intro l
  induction l with
  | nil =>
    intro k
    simp only [takeEveryAux, List.length_nil]
    rw [Nat.zero_sub, Nat.zero_add, Nat.div_eq_of_lt (by omega)]
  | cons a t ih =>
    intro k
    cases k with
    | zero =>
      simp only [takeEveryAux, List.length_cons]
      rw [ih (period - 1)]
      rcases Nat.lt_or_ge t.length (period - 1) with hlt | hge
      · rw [show t.length - (period - 1) = 0 by omega, Nat.zero_add,
          Nat.div_eq_of_lt (by omega),
          show t.length + 1 - 0 + (period - 1) = (t.length + 1 - 0 + (period - 1) - period) + 1 * period by omega,
          Nat.add_mul_div_right _ _ (by omega : 0 < period),
          Nat.div_eq_of_lt (by omega)]
      · rw [show t.length - (period - 1) + (period - 1) = t.length by omega,
          show t.length + 1 - 0 + (period - 1) = t.length + period by omega,
          Nat.add_div_right _ (by omega : 0 < period)]
    | succ k' =>
      simp only [takeEveryAux, List.length_cons]
      rw [ih k']
      congr 1
      omega

end Decimation

/-- C10: `Decimation` with period `P ≥ 1` and start `S` returns the list whose
element `i` is `x[S + i*P]`; its length is `⌈(T - S)/P⌉` (computed as
`(T - S + (P-1)) / P` in ℕ) when `S < T` and `0` when `S ≥ T` — not the
`T/P - S` of the docstring's shape annotation. -/
theorem C10_decimation_elements_and_length {α : Type} (period start : ℕ)
    (x : List α) (hP : 1 ≤ period) :
    (Decimation.forward period start x).length =
      (if start < x.length then (x.length - start + (period - 1)) / period else 0) ∧
    ∀ i : ℕ, (Decimation.forward period start x)[i]? = x[start + i * period]? := by
  constructor
  · rw [Decimation.forward, Decimation.takeEveryAux_length period hP x start]
    rcases Nat.lt_or_ge start x.length with h | h
    · rw [if_pos h]
    · rw [if_neg (by omega), show x.length - start = 0 by omega, Nat.zero_add,
        Nat.div_eq_of_lt (by omega)]
  · intro i
    exact Decimation.takeEveryAux_getElem? period hP x start i

/-- Witness for C10 at the docstring's own example: decimating `0,...,9` with
period 3 and start 1 yields a list of length 3 whose element 1 is `4`. -/
theorem C10_witness :
    (Decimation.forward 3 1 [(0:ℚ),1,2,3,4,5,6,7,8,9]).length = 3 ∧
    (Decimation.forward 3 1 [(0:ℚ),1,2,3,4,5,6,7,8,9])[1]? = some 4 := by
  have h := C10_decimation_elements_and_length 3 1 [(0:ℚ),1,2,3,4,5,6,7,8,9] (by norm_num)
  refine ⟨h.1.trans (by norm_num), (h.2 1).trans ?_⟩
  norm_num

namespace Dequantize

/-- `InverseUniformQuantization._precompute`: returns the level and the
subtraction offset of `func` for each quantizer kind, or raises on an
unsupported quantizer. Both `level // 2` divisions are Python integer
divisions, embedded as ℕ division. -/
def precompute (nBit : ℕ) (quantizer : String) : Except String (ℕ × ℚ) :=
  if quantizer = "mid-rise" then
    .ok (2 ^ nBit, ((2 ^ nBit / 2 : ℕ) : ℚ) - 1 / 2)
  else if quantizer = "mid-tread" then
    .ok (2 ^ nBit - 1, (((2 ^ nBit - 1) / 2 : ℕ) : ℚ))
  else .error "quantizer is not supported."

/-- `InverseUniformQuantization._forward`: shift by the offset, scale by
`2*abs_max/level`, and clip the result to `[-abs_max, abs_max]`
(`torch.clip(x, min=-abs_max, max=abs_max)` is `min (max x lo) hi`). -/
def forward (absMax : ℚ) (level : ℕ) (offset : ℚ) (ys : List ℚ) : List ℚ :=
  ys.map (fun y => min (max ((y - offset) * (2 * absMax / level)) (-absMax)) absMax)

/-- `InverseUniformQuantization.__init__`: runs `_precompute` (which raises on
a bad quantizer), then asserts `0 < abs_max` and `1 <= n_bit`. -/
def init (absMax : ℚ) (nBit : ℕ) (quantizer : String) :
    Except String (ℚ × ℕ × ℚ) :=
  match precompute nBit quantizer with
  | .error e => .error e
  | .ok pre =>
    if 0 < absMax then
      if 1 ≤ nBit then .ok (absMax, pre.1, pre.2)
      else .error "assert 1 <= n_bit"
    else .error "assert 0 < self.abs_max"

end Dequantize

/-- C9: for `abs_max > 0` and either quantizer type, every element of the
output of `InverseUniformQuantization` lies in `[-abs_max, abs_max]`, because
the scaled result is clipped to that range. -/
theorem C9_dequantize_output_clipped (absMax : ℚ) (nBit : ℕ) (q : String)
    (level : ℕ) (offset : ℚ) (ys : List ℚ) (hA : 0 < absMax)
    (_hpre : Dequantize.precompute nBit q = .ok (level, offset)) :
    ∀ z ∈ Dequantize.forward absMax level offset ys, -absMax ≤ z ∧ z ≤ absMax := by
  intro z hz
  rw [Dequantize.forward, List.mem_map] at hz
  obtain ⟨y, -, rfl⟩ := hz
  refine ⟨le_min (le_max_right _ _) (by linarith), min_le_right _ _⟩

/-- Witness for C9: `abs_max = 1`, 2-bit mid-rise quantizer (level 4, offset
3/2), input code 5; the dequantized value `1` lies in `[-1, 1]`. -/
theorem C9_witness : -(1:ℚ) ≤ 1 ∧ (1:ℚ) ≤ 1 := by
  have hpre : Dequantize.precompute 2 "mid-rise" = .ok (4, 3/2) := by
    rw [Dequantize.precompute]; norm_num
  have hmem : (1:ℚ) ∈ Dequantize.forward 1 4 (3/2) [5] := by
    rw [Dequantize.forward]
    have : min (max (((5:ℚ) - 3/2) * (2 * 1 / (4:ℕ))) (-1)) 1 = 1 := by
      rw [show (((5:ℚ) - 3/2) * (2 * 1 / (4:ℕ))) = 7/4 by norm_num,
        max_eq_left (by norm_num), min_eq_right (by norm_num)]
    simpa [this]
  exact C9_dequantize_output_clipped 1 2 "mid-rise" 4 (3/2) [5] (by norm_num) hpre 1 hmem

namespace Spectrum

/-- The keys of the `_convert` table of output formats. -/
def convertKeys : List String := ["db", "log-magnitude", "magnitude", "power"]

/-- `Spectrum.__init__`: `check_mode(out_format, _convert)` raises on an
unknown format, then `assert 2 <= fft_length`, `assert 0 <= eps`, and, when a
relative floor is given, `assert relative_floor < 0`; all before any input is
seen. -/
def init (fftLength : ℤ) (eps : ℚ) (relativeFloor : Option ℚ) (outFormat : String) :
    Except String (ℤ × ℚ × Option ℚ × String) :=
  if outFormat ∈ convertKeys then
    if 2 ≤ fftLength then
      if 0 ≤ eps then
        match relativeFloor with
        | none => .ok (fftLength, eps, none, outFormat)
        | some r =>
          if r < 0 then .ok (fftLength, eps, some r, outFormat)
          else .error "assert relative_floor < 0"
      else .error "assert 0 <= self.eps"
    else .error "assert 2 <= self.fft_length"
  else .error "check_mode: unsupported out_format"

end Spectrum

namespace WalshHadamardTransform

/-- Modelled from the spec: `is_power_of_two` from `misc/utils` (not part of
the given source tree) — whether `n` is a positive power of two. -/
def isPowerOfTwo (n : ℕ) : Bool := n != 0 && n == 2 ^ Nat.log2 n

theorem isPowerOfTwo_iff (n : ℕ) : isPowerOfTwo n = true ↔ ∃ k, n = 2 ^ k := by
  rw [isPowerOfTwo]
  constructor
  · intro h
    simp only [Bool.and_eq_true, bne_iff_ne, beq_iff_eq] at h
    exact ⟨Nat.log2 n, h.2⟩
  · rintro ⟨k, rfl⟩
    simp only [Bool.and_eq_true, bne_iff_ne, beq_iff_eq]
    refine ⟨by positivity, ?_⟩
    rw [Nat.log2_eq_log_two, Nat.log_pow (by norm_num)]

/-- `WalshHadamardTransform.__init__`: asserts `is_power_of_two(wht_length)`
and `1 <= wht_type <= 3` before building the matrix. -/
def init (whtLength whtType : ℕ) : Except String Unit :=
  if isPowerOfTwo whtLength then
    if 1 ≤ whtType ∧ whtType ≤ 3 then .ok ()
    else .error "assert 1 <= wht_type <= 3"
  else .error "assert is_power_of_two(wht_length)"

/-- Reindexing of the two half-size blocks onto `Fin (2^(n+1))`: the first
block occupies rows/columns `0..2^n-1` and the second `2^n..2^(n+1)-1`,
exactly the layout of `scipy.linalg.hadamard`'s Kronecker construction. -/
def blockEquiv (n : ℕ) : Fin (2 ^ n) ⊕ Fin (2 ^ n) ≃ Fin (2 ^ (n + 1)) :=
  finSumFinEquiv.trans (finCongr (by rw [← two_mul, ← pow_succ']))

/-- `scipy.linalg.hadamard(2^n)` (Sylvester construction, natural order,
`wht_type=2`): `H(2^(n+1)) = [[H, H], [H, -H]]` with `H(1) = [[1]]`. -/
def hadamardMatrix : (n : ℕ) → Matrix (Fin (2 ^ n)) (Fin (2 ^ n)) ℚ
  | 0 => 1
  | n + 1 =>
    Matrix.reindex (blockEquiv n) (blockEquiv n)
      (Matrix.fromBlocks (hadamardMatrix n) (hadamardMatrix n)
        (hadamardMatrix n) (-hadamardMatrix n))

theorem hadamardMatrix_mul_self (n : ℕ) :
    hadamardMatrix n * hadamardMatrix n = ((2 : ℚ) ^ n) • 1 := by
  induction n with
  | zero => simp [hadamardMatrix]
  | succ k ih =>
    rw [hadamardMatrix, Matrix.reindex_apply,
      Matrix.submatrix_mul_equiv _ _ _ (blockEquiv k).symm _,
      Matrix.fromBlocks_multiply]
    have h1 : hadamardMatrix k * hadamardMatrix k +
        hadamardMatrix k * hadamardMatrix k = ((2:ℚ) ^ (k+1)) • 1 := by
      rw [ih, ← add_smul]; ring_nf
    have h2 : hadamardMatrix k * hadamardMatrix k +
        hadamardMatrix k * -hadamardMatrix k = 0 := by
      rw [Matrix.mul_neg, add_neg_cancel]
    have h3 : hadamardMatrix k * hadamardMatrix k +
        -hadamardMatrix k * hadamardMatrix k = 0 := by
      rw [Matrix.neg_mul, add_neg_cancel]
    have h4 : hadamardMatrix k * hadamardMatrix k +
        -hadamardMatrix k * -hadamardMatrix k = ((2:ℚ) ^ (k+1)) • 1 := by
      rw [neg_mul_neg, ih, ← add_smul]; ring_nf
    have hb : Matrix.fromBlocks (((2:ℚ) ^ (k+1)) • (1 : Matrix (Fin (2^k)) (Fin (2^k)) ℚ)) 0 0
        (((2:ℚ) ^ (k+1)) • 1) =
        ((2:ℚ) ^ (k+1)) • (1 : Matrix (Fin (2^k) ⊕ Fin (2^k)) (Fin (2^k) ⊕ Fin (2^k)) ℚ) := by
      rw [← Matrix.fromBlocks_one, Matrix.fromBlocks_smul, smul_zero]
    rw [h1, h2, h3, h4, hb]
    ext i j
    simp only [Matrix.submatrix_apply, Matrix.smul_apply, Matrix.one_apply,
      EmbeddingLike.apply_eq_iff_eq]

/-- `_precompute` for `wht_type=2`: the stored buffer
`W = hadamard(L) * 2 ** -(log2(L)/2)` over the reals, with `L = 2^n`. -/
noncomputable def whtMatrix (n : ℕ) : Matrix (Fin (2 ^ n)) (Fin (2 ^ n)) ℝ :=
  ((2 : ℝ) ^ (-((n : ℝ) / 2))) • (hadamardMatrix n).map (Rat.castHom ℝ)

/-- `_forward`: `torch.matmul(x, W)`, i.e. the row vector `x` times `W`. -/
noncomputable def forward (n : ℕ) (x : Fin (2 ^ n) → ℝ) : Fin (2 ^ n) → ℝ :=
  Matrix.vecMul x (whtMatrix n)

theorem whtMatrix_mul_self (n : ℕ) : whtMatrix n * whtMatrix n = 1 := by
  rw [whtMatrix, smul_mul_assoc, mul_smul_comm, smul_smul, ← Matrix.map_mul,
    hadamardMatrix_mul_self]
  have hmap : (((2 : ℚ) ^ n • (1 : Matrix (Fin (2^n)) (Fin (2^n)) ℚ)).map (Rat.castHom ℝ)) =
      ((2 : ℝ) ^ n) • (1 : Matrix (Fin (2^n)) (Fin (2^n)) ℝ) := by
    ext i j
    by_cases h : i = j <;> simp [Matrix.one_apply, h]
  rw [hmap, smul_smul]
  have hz : (2 : ℝ) ^ (-((n : ℝ) / 2)) * (2 : ℝ) ^ (-((n : ℝ) / 2)) * (2 : ℝ) ^ n = 1 := by
    rw [← Real.rpow_natCast 2 n, ← Real.rpow_add (by norm_num),
      ← Real.rpow_add (by norm_num)]
    rw [show -((n : ℝ) / 2) + -((n : ℝ) / 2) + (n : ℝ) = 0 by ring, Real.rpow_zero]
  rw [hz, one_smul]

end WalshHadamardTransform

/-- C8: applying the natural-ordered (`wht_type=2`) Walsh-Hadamard transform
twice is the identity: the transform matrix `2^(-log2 L / 2) * hadamard(L)` is
its own inverse, so `forward (forward x) = x` for every input vector of
power-of-two length `L = 2^n`. -/
theorem C8_wht_involutive (n : ℕ) (x : Fin (2 ^ n) → ℝ) :
    WalshHadamardTransform.forward n (WalshHadamardTransform.forward n x) = x := by
  rw [WalshHadamardTransform.forward, WalshHadamardTransform.forward,
    Matrix.vecMul_vecMul, WalshHadamardTransform.whtMatrix_mul_self,
    Matrix.vecMul_one]

namespace MLSA

/-- Modelled from the spec: the four phase conventions of the MLSA filter
(§4.2); `mglsadf` itself is not part of the given source tree. -/
inductive Phase | minimum | maximum | zero | mixed

/-- Modelled from the spec: the three realization modes (§2, §4.4-§4.6). -/
inductive Mode | multiStage | singleStage | freqDomain

/-- Modelled from the spec: the configuration surface of the filter (§3
FilterConfig); the phase mode is passed separately alongside it. -/
structure Config where
  order : ℕ
  period : ℕ
  alpha : ℚ
  ignoreGain : Bool
  cepOrder : ℕ
  taylorOrder : ℕ
  irLength : ℕ
  fftLength : ℕ

/-- Modelled from the spec: the coefficient vector fed to the spectral
construction, split into anticausal lags `-1, -2, ...` (list index `i` is lag
`-(i+1)`), the lag-0 coefficient, and causal lags `1, 2, ...`. -/
structure Coeffs where
  anti : List ℚ
  c0 : ℚ
  causal : List ℚ

/-- The half-weighted one-sided coefficients `c[1..M] * 0.5` used by the
zero-phase construction (test: `half_mc = mc[..., 1:] * 0.5`). -/
def half (v : List ℚ) : List ℚ := (v.drop 1).map (fun t => t * (1 / 2))

/-- Modelled from the spec: PhaseComposer (§4.2). `minimum` passes the
coefficients unchanged; `maximum` time-reverses indices `1..M` onto the
anticausal side; `zero` builds the symmetric `2M+1` split
`[0.5*reverse(c[1..M]), c[0], 0.5*c[1..M]]`; `mixed` accepts a pre-split
`2M+1` vector whose entry `M` is coefficient 0. -/
def phaseCompose : Phase → ℕ → List ℚ → Coeffs
  | .minimum, _, v => ⟨[], v.getD 0 0, v.drop 1⟩
  | .maximum, _, v => ⟨v.drop 1, v.getD 0 0, []⟩
  | .zero, _, v => ⟨half v, v.getD 0 0, half v⟩
  | .mixed, M, v => ⟨(v.take M).reverse, v.getD M 0, v.drop (M + 1)⟩

/-- The mirrored mixed-phase vector of the zero/mixed equivalence (test:
`mc_mix = cat([half_mc.flip(-1), mc[..., :1], half_mc])`). -/
def mixVec (v : List ℚ) : List ℚ := (half v).reverse ++ (v.take 1 ++ half v)

/-- Modelled from the spec: GainController (§4.1). Extracts the gain scalar
from coefficient 0 (unity when `ignore_gain`), and neutralizes coefficient 0
in the shape coefficients handed downstream. The transcendental
generalized-cepstrum gain formula is abstracted here as the map `g` applied
to coefficient 0; `gainFormula` below realizes it concretely over ℝ. -/
def gainSplit (ig : Bool) (g : ℚ → ℚ) (c : Coeffs) : ℚ × Coeffs :=
  (if ig then 1 else g c.c0, ⟨c.anti, 0, c.causal⟩)

/-- Modelled from the spec: one column of the standard mel all-pass frequency
transform recursion (§4.3), producing entry `k` of the next state from the
previous state `g` and the cepstral coefficient `cm` being folded in. -/
def freqtOut (a cm : ℚ) (g : List ℚ) : ℕ → ℚ
  | 0 => cm + a * g.getD 0 0
  | 1 => (1 - a ^ 2) * g.getD 0 0 + a * g.getD 1 0
  | k + 2 => g.getD (k + 1) 0 + a * (g.getD (k + 2) 0 - freqtOut a cm g (k + 1))

/-- Modelled from the spec: MelCepstrumExpander (§4.3) — the mel-warping
recursion expanding an order-`M` warped cepstrum into an ordinary cepstrum of
order `L`, folding coefficients in from index `M` down to `0`. -/
def freqt (a : ℚ) (L : ℕ) (c : List ℚ) : List ℚ :=
  c.foldr (fun cm g => (List.range (L + 1)).map (freqtOut a cm g))
    (List.replicate (L + 1) 0)

/-- Modelled from the spec: per-frame preparation — PhaseComposer, then
GainController, then MelCepstrumExpander on the causal and anticausal sides
(each with its neutralized lag-0 entry prepended). Returns
`(gain, expanded causal cepstrum, expanded anticausal cepstrum)`. -/
def prepFrame (ph : Phase) (M : ℕ) (ig : Bool) (g : ℚ → ℚ) (a : ℚ) (L : ℕ)
    (v : List ℚ) : ℚ × List ℚ × List ℚ :=
  let s := gainSplit ig g (phaseCompose ph M v)
  (s.1, freqt a L (s.2.c0 :: s.2.causal), freqt a L (s.2.c0 :: s.2.anti))

/-- A finite excitation list viewed as a two-sidedly zero-padded signal. -/
def sig (x : List ℚ) (n : ℤ) : ℚ := if 0 ≤ n then x.getD n.toNat 0 else 0

/-- Modelled from the spec: one cascade stage of the MultiStageRealizer
(§4.4) — the time-varying convolution with the expanded cepstrum of the frame
the output sample falls in (frame `n / P`), causal taps on `u (n - m)` and
anticausal taps on `u (n + m)`; delay lines are zero before sample 0 and
persist across frame boundaries. -/
def msStage (P : ℕ) (fd : ℕ → ℚ × List ℚ × List ℚ) (u : ℤ → ℚ) : ℤ → ℚ :=
  fun n =>
    if 0 ≤ n then
      sumR (fd (n.toNat / P)).2.1.length
        (fun m => (fd (n.toNat / P)).2.1.getD m 0 * u (n - m)) +
      sumR (fd (n.toNat / P)).2.2.length
        (fun m => (fd (n.toNat / P)).2.2.getD m 0 * u (n + m))
    else 0

/-- Modelled from the spec: MultiStageRealizer output sample `n` (§4.4) — the
truncated exponential series of order `K` applied to the cascade, scaled by
the frame's gain. -/
def msSample (P K : ℕ) (fd : ℕ → ℚ × List ℚ × List ℚ) (x : ℤ → ℚ) (n : ℕ) : ℚ :=
  (fd (n / P)).1 *
    sumR (K + 1) (fun k => ((msStage P fd)^[k] x) n / (Nat.factorial k))

/-- Modelled from the spec: the exact minimum-phase impulse response of
`exp(sum_m c(m) z^(-m))` (§4.5), via the standard cepstrum-to-impulse-response
recursion `h(0) = 1`, `h(n) = (1/n) * sum_k k*c(k)*h(n-k)`; built most-recent
first. -/
def expIrRev (c : List ℚ) : ℕ → List ℚ
  | 0 => []
  | n + 1 =>
    (if n = 0 then 1 else
      (sumR n (fun j => ((j + 1 : ℕ) : ℚ) * c.getD (j + 1) 0 *
        (expIrRev c n).getD j 0)) / n) :: expIrRev c n

/-- The first `len` samples of the impulse response, in time order. -/
def expIr (c : List ℚ) (len : ℕ) : List ℚ := (expIrRev c len).reverse

/-- Excitation restricted to the `P`-sample block of frame `i`. -/
def blockSig (P : ℕ) (x : ℤ → ℚ) (i : ℕ) (t : ℤ) : ℚ :=
  if (i * P : ℤ) ≤ t ∧ t < ((i + 1) * P : ℤ) then x t else 0

/-- Modelled from the spec: SingleStageRealizer contribution of frame `i` to
output sample `n` (§4.5) — the frame's excitation block convolved with the
frame's truncated causal impulse response and (on taps `u (n + a)`) its
anticausal one, scaled by the frame's gain and the lag-0 spectral scalar
(the exponential map, abstracted as `expFn`); convolution tails reaching past
the block boundary realize the persistent overlap buffer. -/
def ssContrib (P ir : ℕ) (fd : ℕ → ℚ × List ℚ × List ℚ) (expFn : ℚ → ℚ)
    (x : ℤ → ℚ) (i : ℕ) (n : ℤ) : ℚ :=
  (fd i).1 * expFn ((fd i).2.1.getD 0 0 + (fd i).2.2.getD 0 0) *
    sumR (expIr (fd i).2.2 ir).length (fun a =>
      (expIr (fd i).2.2 ir).getD a 0 *
        sumR (expIr (fd i).2.1 ir).length (fun m =>
          (expIr (fd i).2.1 ir).getD m 0 * blockSig P x i (n + a - m)))

/-- Modelled from the spec: SingleStageRealizer output sample — overlap-add of
all frame contributions (§4.5). -/
def ssSample (P ir F : ℕ) (fd : ℕ → ℚ × List ℚ × List ℚ) (expFn : ℚ → ℚ)
    (x : ℤ → ℚ) (n : ℕ) : ℚ :=
  sumR F (fun i => ssContrib P ir fd expFn x i n)

/-- The length-`fft` circular (DFT-domain) kernel obtained from the causal
response `hC` and anticausal response `hA`: anticausal taps alias modulo the
FFT length, exactly as pointwise multiplication of sampled frequency
responses does. -/
def circKer (fft : ℕ) (hC hA : List ℚ) (j : ℕ) : ℚ :=
  sumR hA.length (fun a => hA.getD a 0 * hC.getD ((j + a) % fft) 0)

/-- Modelled from the spec: FreqDomainRealizer contribution of frame `i` to
output sample `n` (§4.6) — the frame's `P`-sample excitation block (hop `P`,
rectangular window), circularly convolved at length `fft_length` with the
frame's sampled-response kernel (FFT multiply by the convolution theorem),
overlap-added at offset `i*P`. -/
def fdContrib (P fft : ℕ) (fd : ℕ → ℚ × List ℚ × List ℚ) (expFn : ℚ → ℚ)
    (x : ℤ → ℚ) (i : ℕ) (n : ℤ) : ℚ :=
  if (i * P : ℤ) ≤ n ∧ n < (i * P : ℤ) + fft then
    (fd i).1 * expFn ((fd i).2.1.getD 0 0 + (fd i).2.2.getD 0 0) *
      sumR P (fun j => x ((i * P : ℤ) + j) *
        circKer fft (expIr (fd i).2.1 fft) (expIr (fd i).2.2 fft)
          ((n - i * P - j) % (fft : ℤ)).toNat)
  else 0

/-- Modelled from the spec: FreqDomainRealizer output sample — overlap-add of
all frame blocks (§4.6). -/
def fdSample (P fft F : ℕ) (fd : ℕ → ℚ × List ℚ × List ℚ) (expFn : ℚ → ℚ)
    (x : ℤ → ℚ) (n : ℕ) : ℚ :=
  sumR F (fun i => fdContrib P fft fd expFn x i n)

/-- Modelled from the spec: the mode dispatch of the FilterDriver (§4.7) over
prepared per-frame data `fd`, emitting `N` output samples. -/
def synthCore (mode : Mode) (cfg : Config) (expFn : ℚ → ℚ) (F N : ℕ)
    (fd : ℕ → ℚ × List ℚ × List ℚ) (xs : ℤ → ℚ) : List ℚ :=
  (List.range N).map fun n =>
    match mode with
    | .multiStage => msSample cfg.period cfg.taylorOrder fd xs n
    | .singleStage => ssSample cfg.period cfg.irLength F fd expFn xs n
    | .freqDomain => fdSample cfg.period cfg.fftLength F fd expFn xs n

/-- Modelled from the spec: `FilterDriver.synthesize` (§4.7, §7) — truncates
the processed extent to `min(len(excitation), frame_count*P)` samples,
prepares each frame, dispatches on the realization mode and returns the
truncated-length waveform. -/
def synthesize (mode : Mode) (cfg : Config) (ph : Phase) (g expFn : ℚ → ℚ)
    (x : List ℚ) (frames : List (List ℚ)) : List ℚ :=
  synthCore mode cfg expFn frames.length (min x.length (frames.length * cfg.period))
    (fun i => prepFrame ph cfg.order cfg.ignoreGain g cfg.alpha cfg.cepOrder
      (frames.getD i []))
    (sig (x.take (min x.length (frames.length * cfg.period))))

/-- Modelled from the spec: the generalized-cepstrum gain formula of the
GainController over ℝ (§4.1): `exp(c0)` when `gamma = 0`, else
`(1 + gamma*c0) ^ (1/gamma)`. -/
noncomputable def gainFormula (gamma c0 : ℝ) : ℝ :=
  if gamma = 0 then Real.exp c0 else (1 + gamma * c0) ^ ((1 : ℝ) / gamma)

/-- Modelled from the spec: the GainController over ℝ (§4.1) — returns the
gain scalar (unity under `ignore_gain`) and the shape coefficients with
coefficient 0 neutralized. -/
noncomputable def gainController (ig : Bool) (gamma : ℝ) (frame : List ℝ) :
    ℝ × List ℝ :=
  (if ig then 1 else gainFormula gamma (frame.getD 0 0), 0 :: frame.drop 1)

/-- Modelled from the spec: construction-time configuration validation of the
filter (§7) — invalid phase mode string, non-power-of-two or too-small FFT
size, and negative or zero frame period, order, or truncation order are all
rejected before any sample can be processed. -/
def checkConfig (M P taylorOrder fftLength : ℤ) (ph : String) : Except String Unit :=
  if ph ∈ ["minimum", "maximum", "zero", "mixed"] then
    if 1 ≤ P then
      if 1 ≤ M then
        if 1 ≤ taylorOrder then
          if 2 ≤ fftLength ∧ (0 ≤ fftLength ∧
              WalshHadamardTransform.isPowerOfTwo fftLength.toNat) then .ok ()
          else .error "ConfigurationError: non-power-of-two or too-small FFT size"
        else .error "ConfigurationError: negative or zero truncation order"
      else .error "ConfigurationError: negative or zero order"
    else .error "ConfigurationError: negative or zero frame period"
  else .error "ConfigurationError: invalid phase mode"

end MLSA

/-- C6: when the excitation length disagrees with `frame_count * P`, the
synthesize operation does not fail: the processed extent is
`min(len(excitation), frame_count*P)` samples — the output has exactly that
length, and the result is unchanged when the excitation is truncated to that
extent beforehand. -/
theorem C6_driver_truncates_to_min (mode : MLSA.Mode) (cfg : MLSA.Config)
    (ph : MLSA.Phase) (g expFn : ℚ → ℚ) (x : List ℚ) (frames : List (List ℚ)) :
    (MLSA.synthesize mode cfg ph g expFn x frames).length =
      min x.length (frames.length * cfg.period) ∧
    MLSA.synthesize mode cfg ph g expFn x frames =
      MLSA.synthesize mode cfg ph g expFn
        (x.take (min x.length (frames.length * cfg.period))) frames := by
  refine ⟨by simp [MLSA.synthesize, MLSA.synthCore], ?_⟩
  rw [MLSA.synthesize, MLSA.synthesize]
  have hN : min (x.take (min x.length (frames.length * cfg.period))).length
      (frames.length * cfg.period) = min x.length (frames.length * cfg.period) := by
    rw [List.length_take]; omega
  rw [hN, List.take_take, min_self]

/-- C4: the GainController returns gain exactly 1 and excludes coefficient 0
from the downstream shape coefficients when `ignore_gain` is true; otherwise
the gain scalar is `exp(c0)` for `gamma = 0` and `(1 + gamma*c0)^(1/gamma)`
for `gamma > 0`, where `c0` is coefficient 0 of the frame. -/
theorem C4_gain_controller (ig : Bool) (gamma : ℝ) (frame : List ℝ) :
    (ig = true → (MLSA.gainController ig gamma frame).1 = 1) ∧
    (MLSA.gainController ig gamma frame).2.getD 0 0 = 0 ∧
    (ig = false → gamma = 0 →
      (MLSA.gainController ig gamma frame).1 = Real.exp (frame.getD 0 0)) ∧
    (ig = false → 0 < gamma →
      (MLSA.gainController ig gamma frame).1 =
        (1 + gamma * frame.getD 0 0) ^ ((1 : ℝ) / gamma)) := by
  refine ⟨fun h => by simp [MLSA.gainController, h], by simp [MLSA.gainController],
    fun h h0 => ?_, fun h h0 => ?_⟩
  · simp [MLSA.gainController, MLSA.gainFormula, h, h0]
  · simp [MLSA.gainController, MLSA.gainFormula, h, ne_of_gt h0]

/-- Witness for C4: with `ignore_gain` the gain of frame `[5]` is 1 and the
downstream coefficient 0 is `0`; without it, `gamma = 1` on frame `[2]` gives
gain `(1 + 1*2)^(1/1) = 3`. -/
theorem C4_witness :
    (MLSA.gainController true 0 [(5 : ℝ)]).1 = 1 ∧
    (MLSA.gainController true 0 [(5 : ℝ)]).2.getD 0 0 = 0 ∧
    (MLSA.gainController false 1 [(2 : ℝ)]).1 = 3 := by
  refine ⟨(C4_gain_controller true 0 [(5 : ℝ)]).1 rfl,
    (C4_gain_controller true 0 [(5 : ℝ)]).2.1,
    ((C4_gain_controller false 1 [(2 : ℝ)]).2.2.2 rfl (by norm_num)).trans ?_⟩
  norm_num

/-- An `Except` computation that succeeded (the constructor did not raise). -/
def exceptOk {α : Type} (e : Except String α) : Prop := ∃ a, e = Except.ok a

/-- C5: every configuration error is raised during construction, before any
input is processed: each constructor succeeds exactly on valid parameters
(invalid phase mode string, non-power-of-two or too-small FFT size, invalid
period/start, order or truncation order, unsupported format or quantizer,
non-positive `abs_max`/`n_bit`, non-negative relative floor all yield an
error value, so no partially-valid object exists). -/
theorem C5_constructors_validate :
    (∀ (fftLength : ℤ) (eps : ℚ) (rf : Option ℚ) (fmt : String),
      exceptOk (Spectrum.init fftLength eps rf fmt) ↔
        (fmt ∈ Spectrum.convertKeys ∧ 2 ≤ fftLength ∧ 0 ≤ eps ∧
          ∀ r, rf = some r → r < 0)) ∧
    (∀ L t : ℕ, exceptOk (WalshHadamardTransform.init L t) ↔
        ((∃ k, L = 2 ^ k) ∧ 1 ≤ t ∧ t ≤ 3)) ∧
    (∀ p s : ℤ, exceptOk (Decimation.init p s) ↔ (1 ≤ p ∧ 0 ≤ s)) ∧
    (∀ (absMax : ℚ) (nBit : ℕ) (q : String),
      exceptOk (Dequantize.init absMax nBit q) ↔
        ((q = "mid-rise" ∨ q = "mid-tread") ∧ 0 < absMax ∧ 1 ≤ nBit)) ∧
    (∀ (M P K fft : ℤ) (ph : String),
      exceptOk (MLSA.checkConfig M P K fft ph) ↔
        (ph ∈ ["minimum", "maximum", "zero", "mixed"] ∧ 1 ≤ P ∧ 1 ≤ M ∧
          1 ≤ K ∧ 2 ≤ fft ∧ ∃ k, fft = 2 ^ k)) := by
  refine ⟨?_, ?_, ?_, ?_, ?_⟩
  · intro fftLength eps rf fmt
    cases rf with
    | none =>
      rw [Spectrum.init]
      split_ifs <;> simp_all [exceptOk]
    | some r =>
      rw [Spectrum.init]
      split_ifs <;> simp_all [exceptOk]
  · intro L t
    rw [WalshHadamardTransform.init, ← WalshHadamardTransform.isPowerOfTwo_iff]
    split_ifs <;> simp_all [exceptOk]
  · intro p s
    rw [Decimation.init]
    split_ifs <;> simp_all [exceptOk]
  · intro absMax nBit q
    by_cases h1 : q = "mid-rise"
    · simp only [Dequantize.init, Dequantize.precompute, h1, reduceIte]
      split_ifs <;> simp_all [exceptOk]
    · by_cases h2 : q = "mid-tread"
      · simp only [Dequantize.init, Dequantize.precompute, h1, h2, reduceIte]
        split_ifs <;> simp_all [exceptOk]
      · simp only [Dequantize.init, Dequantize.precompute, h1, h2, reduceIte]
        simp [exceptOk, h1, h2]
  · intro M P K fft ph
    rw [MLSA.checkConfig]
    have hpow : (0 ≤ fft ∧ WalshHadamardTransform.isPowerOfTwo fft.toNat = true) ↔
        ∃ k, fft = 2 ^ k := by
      rw [WalshHadamardTransform.isPowerOfTwo_iff]
      constructor
      · rintro ⟨h0, k, hk⟩
        refine ⟨k, ?_⟩
        rw [← Int.toNat_of_nonneg h0, hk]
        push_cast
        ring
      · rintro ⟨k, rfl⟩
        refine ⟨by positivity, k, ?_⟩
        rw [show (2:ℤ) = ((2:ℕ):ℤ) by norm_num, ← Nat.cast_pow, Int.toNat_natCast]
    split_ifs with h1 h2 h3 h4 h5 <;>
      simp_all [exceptOk, ← hpow]

namespace MLSA

theorem half_length (v : List ℚ) : (half v).length = v.length - 1 := by
  simp [half]

theorem phaseCompose_mixed_mixVec (M : ℕ) (v : List ℚ) (hv : v.length = M + 1) :
    phaseCompose .mixed M (mixVec v) = phaseCompose .zero M v := by
  have hhalf : (half v).length = M := by rw [half_length, hv]; omega
  have hrev : (half v).reverse.length = M := by rw [List.length_reverse, hhalf]
  have htake1 : (v.take 1).length = 1 := by rw [List.length_take]; omega
  rw [phaseCompose, phaseCompose, mixVec]
  have h1 : (((half v).reverse ++ (v.take 1 ++ half v)).take M).reverse = half v := by
    rw [List.take_left' hrev, List.reverse_reverse]
  have h2 : ((half v).reverse ++ (v.take 1 ++ half v)).getD M 0 = v.getD 0 0 := by
    rw [List.getD_eq_getElem?_getD, List.getElem?_append_right (le_of_eq hrev), hrev,
      Nat.sub_self, List.getElem?_append_left (by omega), List.getElem?_take_of_lt (by omega),
      ← List.getD_eq_getElem?_getD]
  have h3 : ((half v).reverse ++ (v.take 1 ++ half v)).drop (M + 1) = half v := by
    rw [← List.append_assoc, List.drop_left' (by rw [List.length_append, hrev, htake1])]
  rw [h1, h2, h3]

theorem phaseCompose_mixed_nil (M : ℕ) :
    phaseCompose .mixed M ([] : List ℚ) = phaseCompose .zero M [] := by
  simp [phaseCompose, half]

theorem prepFrame_mixed_mixVec (M : ℕ) (ig : Bool) (g : ℚ → ℚ) (a : ℚ) (L : ℕ)
    (v : List ℚ) (hv : v.length = M + 1) :
    prepFrame .mixed M ig g a L (mixVec v) = prepFrame .zero M ig g a L v := by
  rw [prepFrame, prepFrame, phaseCompose_mixed_mixVec M v hv]

theorem prepFrame_mixed_nil (M : ℕ) (ig : Bool) (g : ℚ → ℚ) (a : ℚ) (L : ℕ) :
    prepFrame .mixed M ig g a L ([] : List ℚ) = prepFrame .zero M ig g a L [] := by
  rw [prepFrame, prepFrame, phaseCompose_mixed_nil]

end MLSA

/-- C2: for order-`M` frames, building the `2M+1`-length mixed-phase vector
`[0.5*reverse(c[1..M]), c[0], 0.5*c[1..M]]` and running phase `mixed`
reproduces the output of phase `zero` on the original frames exactly, for
every realization mode and every gain policy. -/
theorem C2_zero_mixed_equivalence (mode : MLSA.Mode) (cfg : MLSA.Config)
    (g expFn : ℚ → ℚ) (x : List ℚ) (frames : List (List ℚ))
    (hM : ∀ v ∈ frames, v.length = cfg.order + 1) :
    MLSA.synthesize mode cfg .zero g expFn x frames =
      MLSA.synthesize mode cfg .mixed g expFn x (frames.map MLSA.mixVec) := by
  rw [MLSA.synthesize, MLSA.synthesize, List.length_map]
  have hfd : (fun i => MLSA.prepFrame .mixed cfg.order cfg.ignoreGain g cfg.alpha
      cfg.cepOrder ((frames.map MLSA.mixVec).getD i [])) =
      (fun i => MLSA.prepFrame .zero cfg.order cfg.ignoreGain g cfg.alpha
        cfg.cepOrder (frames.getD i [])) := by
    funext i
    rcases Nat.lt_or_ge i frames.length with hi | hi
    · have h1 : (frames.map MLSA.mixVec).getD i [] = MLSA.mixVec (frames.getD i []) := by
        rw [List.getD_eq_getElem?_getD, List.getD_eq_getElem?_getD, List.getElem?_map,
          List.getElem?_eq_getElem hi]
        rfl
      have hmem : frames.getD i [] ∈ frames := by
        rw [List.getD_eq_getElem?_getD, List.getElem?_eq_getElem hi]
        exact List.getElem_mem hi
      rw [h1, MLSA.prepFrame_mixed_mixVec _ _ _ _ _ _ (hM _ hmem)]
    · rw [List.getD_eq_default _ _ (by simpa using hi), List.getD_eq_default _ _ hi,
        MLSA.prepFrame_mixed_nil]
  rw [hfd]

/-- Witness for C2: a two-frame order-1 sequence with a concrete excitation,
in multi-stage mode. -/
theorem C2_witness :
    MLSA.synthesize .multiStage
        ⟨1, 2, 1/3, false, 3, 2, 4, 4⟩ .zero id (fun t => 1 + t)
        [1, -1, 2, 0] [[1, 1/2], [0, 2]] =
      MLSA.synthesize .multiStage
        ⟨1, 2, 1/3, false, 3, 2, 4, 4⟩ .mixed id (fun t => 1 + t)
        [1, -1, 2, 0] ([[1, 1/2], [0, 2]].map MLSA.mixVec) := by
  exact C2_zero_mixed_equivalence _ _ _ _ _ _ (by
    intro v hv
    simp only [List.mem_cons, List.not_mem_nil, or_false] at hv
    rcases hv with h | h <;> simp [h])

namespace MLSA

theorem getD_map_mul (k : ℚ) (x : List ℚ) (m : ℕ) :
    (x.map (fun t => k * t)).getD m 0 = k * x.getD m 0 := by
  rw [List.getD_eq_getElem?_getD, List.getD_eq_getElem?_getD, List.getElem?_map]
  cases x[m]? <;> simp

theorem sig_map_mul (k : ℚ) (x : List ℚ) (n : ℤ) :
    sig (x.map (fun t => k * t)) n = k * sig x n := by
  rw [sig, sig]
  split
  · exact getD_map_mul k x _
  · ring

theorem msStage_mul (P : ℕ) (fd : ℕ → ℚ × List ℚ × List ℚ) (k : ℚ)
    (u v : ℤ → ℚ) (hu : ∀ t, u t = k * v t) (n : ℤ) :
    msStage P fd u n = k * msStage P fd v n := by
  rw [msStage, msStage]
  split
  · rw [mul_add, ← sumR_mul_left, ← sumR_mul_left]
    exact congrArg₂ (· + ·)
      (sumR_congr (fun m _ => by rw [hu]; ring))
      (sumR_congr (fun m _ => by rw [hu]; ring))
  · ring

theorem msStage_iterate_mul (P : ℕ) (fd : ℕ → ℚ × List ℚ × List ℚ) (k : ℚ)
    (u v : ℤ → ℚ) (hu : ∀ t, u t = k * v t) :
    ∀ (j : ℕ) (t : ℤ), ((msStage P fd)^[j] u) t = k * ((msStage P fd)^[j] v) t := by
  intro j
  induction j with
  | zero => simpa using hu
  | succ m ih =>
    intro t
    rw [Function.iterate_succ_apply', Function.iterate_succ_apply']
    exact msStage_mul P fd k _ _ ih t

theorem msSample_mul (P K : ℕ) (fd : ℕ → ℚ × List ℚ × List ℚ) (k : ℚ)
    (u v : ℤ → ℚ) (hu : ∀ t, u t = k * v t) (n : ℕ) :
    msSample P K fd u n = k * msSample P K fd v n := by
  rw [msSample, msSample]
  have h : sumR (K + 1) (fun j => ((msStage P fd)^[j] u) n / (Nat.factorial j)) =
      k * sumR (K + 1) (fun j => ((msStage P fd)^[j] v) n / (Nat.factorial j)) := by
    rw [← sumR_mul_left]
    exact sumR_congr (fun j _ => by rw [msStage_iterate_mul P fd k u v hu j n]; ring)
  rw [h]; ring

theorem blockSig_mul (P : ℕ) (k : ℚ) (u v : ℤ → ℚ) (hu : ∀ t, u t = k * v t)
    (i : ℕ) (t : ℤ) : blockSig P u i t = k * blockSig P v i t := by
  rw [blockSig, blockSig]
  split
  · exact hu t
  · ring

theorem ssContrib_mul (P ir : ℕ) (fd : ℕ → ℚ × List ℚ × List ℚ) (expFn : ℚ → ℚ)
    (k : ℚ) (u v : ℤ → ℚ) (hu : ∀ t, u t = k * v t) (i : ℕ) (n : ℤ) :
    ssContrib P ir fd expFn u i n = k * ssContrib P ir fd expFn v i n := by
  rw [ssContrib, ssContrib]
  have h : ∀ a, sumR (expIr (fd i).2.1 ir).length
        (fun m => (expIr (fd i).2.1 ir).getD m 0 * blockSig P u i (n + a - m)) =
      k * sumR (expIr (fd i).2.1 ir).length
        (fun m => (expIr (fd i).2.1 ir).getD m 0 * blockSig P v i (n + a - m)) := by
    intro a
    rw [← sumR_mul_left]
    exact sumR_congr (fun m _ => by rw [blockSig_mul P k u v hu]; ring)
  have h2 : sumR (expIr (fd i).2.2 ir).length (fun a => (expIr (fd i).2.2 ir).getD a 0 *
        sumR (expIr (fd i).2.1 ir).length
          (fun m => (expIr (fd i).2.1 ir).getD m 0 * blockSig P u i (n + a - m))) =
      k * sumR (expIr (fd i).2.2 ir).length (fun a => (expIr (fd i).2.2 ir).getD a 0 *
        sumR (expIr (fd i).2.1 ir).length
          (fun m => (expIr (fd i).2.1 ir).getD m 0 * blockSig P v i (n + a - m))) := by
    rw [← sumR_mul_left]
    exact sumR_congr (fun a _ => by rw [h a]; ring)
  rw [h2]; ring

theorem ssSample_mul (P ir F : ℕ) (fd : ℕ → ℚ × List ℚ × List ℚ) (expFn : ℚ → ℚ)
    (k : ℚ) (u v : ℤ → ℚ) (hu : ∀ t, u t = k * v t) (n : ℕ) :
    ssSample P ir F fd expFn u n = k * ssSample P ir F fd expFn v n := by
  rw [ssSample, ssSample, ← sumR_mul_left]
  exact sumR_congr (fun i _ => ssContrib_mul P ir fd expFn k u v hu i n)

theorem fdContrib_mul (P fft : ℕ) (fd : ℕ → ℚ × List ℚ × List ℚ) (expFn : ℚ → ℚ)
    (k : ℚ) (u v : ℤ → ℚ) (hu : ∀ t, u t = k * v t) (i : ℕ) (n : ℤ) :
    fdContrib P fft fd expFn u i n = k * fdContrib P fft fd expFn v i n := by
  rw [fdContrib, fdContrib]
  split
  · have h : sumR P (fun j => u ((i * P : ℤ) + j) *
          circKer fft (expIr (fd i).2.1 fft) (expIr (fd i).2.2 fft)
            ((n - i * P - j) % (fft : ℤ)).toNat) =
        k * sumR P (fun j => v ((i * P : ℤ) + j) *
          circKer fft (expIr (fd i).2.1 fft) (expIr (fd i).2.2 fft)
            ((n - i * P - j) % (fft : ℤ)).toNat) := by
      rw [← sumR_mul_left]
      exact sumR_congr (fun j _ => by rw [hu]; ring)
    rw [h]; ring
  · ring

theorem fdSample_mul (P fft F : ℕ) (fd : ℕ → ℚ × List ℚ × List ℚ) (expFn : ℚ → ℚ)
    (k : ℚ) (u v : ℤ → ℚ) (hu : ∀ t, u t = k * v t) (n : ℕ) :
    fdSample P fft F fd expFn u n = k * fdSample P fft F fd expFn v n := by
  rw [fdSample, fdSample, ← sumR_mul_left]
  exact sumR_congr (fun i _ => fdContrib_mul P fft fd expFn k u v hu i n)

end MLSA

/-- C3: with `ignore_gain = true`, scaling the excitation by a positive
constant `k` scales the output of every realization mode and phase mode by
exactly `k`, independent of the cepstral frame values. -/
theorem C3_gain_neutral_linearity (mode : MLSA.Mode) (cfg : MLSA.Config)
    (ph : MLSA.Phase) (g expFn : ℚ → ℚ) (x : List ℚ) (frames : List (List ℚ))
    (k : ℚ) (hk : 0 < k) (hig : cfg.ignoreGain = true) :
    MLSA.synthesize mode cfg ph g expFn (x.map (fun t => k * t)) frames =
      (MLSA.synthesize mode cfg ph g expFn x frames).map (fun t => k * t) := by
  rw [MLSA.synthesize, MLSA.synthesize, List.length_map]
  rw [← List.map_take]
  have hu : ∀ t, MLSA.sig ((x.take (min x.length (frames.length * cfg.period))).map
      (fun t => k * t)) t =
      k * MLSA.sig (x.take (min x.length (frames.length * cfg.period))) t :=
    MLSA.sig_map_mul k _
  rw [MLSA.synthCore, MLSA.synthCore, List.map_map]
  refine List.map_congr_left (fun n _ => ?_)
  cases mode with
  | multiStage =>
    exact MLSA.msSample_mul cfg.period cfg.taylorOrder _ k _ _ hu n
  | singleStage =>
    exact MLSA.ssSample_mul cfg.period cfg.irLength frames.length _ expFn k _ _ hu n
  | freqDomain =>
    exact MLSA.fdSample_mul cfg.period cfg.fftLength frames.length _ expFn k _ _ hu n

/-- Witness for C3: doubling a concrete excitation doubles the single-stage
output with `ignore_gain` set. -/
theorem C3_witness :
    MLSA.synthesize .singleStage ⟨1, 2, 1/3, true, 3, 2, 4, 4⟩ .minimum id
        (fun t => 1 + t) ([1, -1, 2, 0].map (fun t => (2:ℚ) * t)) [[1, 1/2], [0, 2]] =
      (MLSA.synthesize .singleStage ⟨1, 2, 1/3, true, 3, 2, 4, 4⟩ .minimum id
        (fun t => 1 + t) [1, -1, 2, 0] [[1, 1/2], [0, 2]]).map (fun t => (2:ℚ) * t) :=
  C3_gain_neutral_linearity _ _ _ _ _ _ _ 2 (by norm_num) rfl

theorem sumR_succ_front (n : ℕ) (f : ℕ → ℚ) :
    sumR (n + 1) f = f 0 + sumR n (fun m => f (m + 1)) := by
  rw [sumR, List.range_succ_eq_map, List.map_cons, List.sum_cons, sumR, List.map_map]
  rfl

/-- Entries of a unit-impulse list. -/
theorem deltaList_getD (q m : ℕ) :
    (1 :: List.replicate q (0:ℚ)).getD m 0 = if m = 0 then 1 else 0 := by
  cases m with
  | zero => simp
  | succ p =>
    rw [List.getD_cons_succ, List.getD_eq_getElem?_getD, List.getElem?_replicate]
    split <;> simp

theorem sumR_delta (q : ℕ) (f : ℕ → ℚ) :
    sumR (q + 1) (fun m => (1 :: List.replicate q (0:ℚ)).getD m 0 * f m) = f 0 := by
  rw [sumR_succ_front]
  simp only [deltaList_getD]
  rw [sumR_eq_zero (fun m _ => by simp)]
  simp

theorem sumR_single (q : ℕ) (f : ℕ → ℚ) (j0 : ℕ) (hj : j0 < q)
    (hf : ∀ j < q, j ≠ j0 → f j = 0) : sumR q f = f j0 := by
  induction q with
  | zero => omega
  | succ p ih =>
    rw [sumR_succ]
    rcases Nat.lt_or_ge j0 p with h | h
    · rw [ih h (fun j hjp hne => hf j (by omega) hne), hf p (by omega) (by omega), add_zero]
    · have hj0 : j0 = p := by omega
      rw [hj0, sumR_eq_zero (fun j hjp => hf j (by omega) (by omega)), zero_add]

namespace MLSA

theorem freqtOut_zero (a : ℚ) (g : List ℚ) (hg : ∀ j, g.getD j 0 = 0) :
    ∀ m, freqtOut a 0 g m = 0 := by
  intro m
  induction m using Nat.strong_induction_on with
  | _ m ih =>
    match m with
    | 0 => rw [freqtOut, hg]; ring
    | 1 => rw [freqtOut, hg, hg]; ring
    | k + 2 => rw [freqtOut, hg, hg, ih (k + 1) (by omega)]; ring

theorem rangeMap_getD (n : ℕ) (f : ℕ → ℚ) (j : ℕ) :
    ((List.range n).map f).getD j 0 = if j < n then f j else 0 := by
  rw [List.getD_eq_getElem?_getD, List.getElem?_map]
  rcases Nat.lt_or_ge j n with h | h
  · rw [List.getElem?_range h, if_pos h]
    rfl
  · rw [List.getElem?_eq_none (by simpa using h), if_neg (by omega)]
    rfl

theorem freqt_zero_getD (a : ℚ) (L : ℕ) :
    ∀ c : List ℚ, (∀ y ∈ c, y = 0) → ∀ j, (freqt a L c).getD j 0 = 0 := by
  intro c
  induction c with
  | nil =>
    intro _ j
    rw [freqt, List.foldr_nil, List.getD_eq_getElem?_getD, List.getElem?_replicate]
    split <;> rfl
  | cons cm rest ih =>
    intro hc j
    have hstep : freqt a L (cm :: rest) =
        (List.range (L + 1)).map (freqtOut a cm (freqt a L rest)) := rfl
    rw [hstep, rangeMap_getD]
    split
    · rw [hc cm (by simp)]
      exact freqtOut_zero a _ (ih (fun y hy => hc y (List.mem_cons_of_mem _ hy))) j
    · rfl

theorem expIrRev_delta (c : List ℚ) (hc : ∀ j, c.getD (j + 1) 0 = 0) :
    ∀ n : ℕ, expIrRev c n = if n = 0 then [] else List.replicate (n - 1) 0 ++ [1] := by
  intro n
  induction n with
  | zero => rfl
  | succ m ih =>
    rw [expIrRev]
    cases m with
    | zero =>
      rw [show expIrRev c 0 = ([] : List ℚ) from rfl]
      simp
    | succ p =>
      rw [ih, if_neg (by omega), if_neg (by omega),
        sumR_eq_zero (fun j _ => by rw [hc j]; ring)]
      rw [show ((p + 1 : ℕ) + 1) - 1 = p + 1 by omega, show (p + 1 : ℕ) - 1 = p by omega,
        List.replicate_succ, List.cons_append]
      norm_num

theorem expIr_delta (c : List ℚ) (hc : ∀ j, c.getD (j + 1) 0 = 0) (len : ℕ)
    (hlen : 1 ≤ len) : expIr c len = 1 :: List.replicate (len - 1) 0 := by
  rw [expIr, expIrRev_delta c hc len, if_neg (by omega), List.reverse_append,
    List.reverse_replicate]
  rfl

theorem phaseCompose_order0 (ph : Phase) (v : List ℚ) (hv : v.length ≤ 1) :
    phaseCompose ph 0 v = ⟨[], v.getD 0 0, []⟩ := by
  cases ph <;>
    simp [phaseCompose, half, List.drop_eq_nil_of_le (by omega : v.length ≤ 1),
      List.drop_eq_nil_of_le (by omega : v.length ≤ 0 + 1)]

theorem sig_take_getD (x : List ℚ) (N n : ℕ) (hn : n < N) :
    sig (x.take N) (n : ℤ) = x.getD n 0 := by
  rw [sig, if_pos (by omega), Int.toNat_natCast, List.getD_eq_getElem?_getD,
    List.getD_eq_getElem?_getD, List.getElem?_take_of_lt hn]

theorem sumR_blockIf (P : ℕ) (hP : 1 ≤ P) (G : ℕ → ℚ) :
    ∀ (F n : ℕ), n < F * P →
      sumR F (fun i => if ((i * P : ℤ) ≤ (n : ℤ) ∧ (n : ℤ) < ((i + 1) * P : ℤ))
        then G i else 0) = G (n / P) := by
  intro F
  induction F with
  | zero => intro n hn; exact absurd hn (by omega)
  | succ q ih =>
    intro n hn
    rw [sumR_succ]
    rcases Nat.lt_or_ge n (q * P) with h | h
    · rw [ih n h, if_neg, add_zero]
      rintro ⟨h1, -⟩
      have : (n : ℤ) < (q : ℤ) * P := by exact_mod_cast h
      push_cast at h1
      linarith
    · have hdiv : n / P = q := Nat.div_eq_of_lt_le h (by exact_mod_cast hn)
      rw [if_pos ⟨by exact_mod_cast h, by push_cast; exact_mod_cast hn⟩, hdiv,
        sumR_eq_zero, zero_add]
      intro i hi
      rw [if_neg]
      rintro ⟨-, h2⟩
      have hle : ((i + 1) * P : ℤ) ≤ (q * P : ℤ) := by
        have : (i + 1) * P ≤ q * P := Nat.mul_le_mul_right P (by omega)
        exact_mod_cast this
      have : (n : ℤ) ≥ (q * P : ℤ) := by exact_mod_cast h
      push_cast at hle this h2
      linarith

end MLSA

namespace MLSA

theorem msSample_delta (P K : ℕ) (fd : ℕ → ℚ × List ℚ × List ℚ) (G : ℕ → ℚ)
    (Z : List ℚ) (hfd1 : ∀ i, (fd i).1 = G i) (hfd2 : ∀ i, (fd i).2.1 = Z)
    (hfd3 : ∀ i, (fd i).2.2 = Z) (hZ : ∀ j, Z.getD j 0 = 0) (u : ℤ → ℚ) (n : ℕ) :
    msSample P K fd u n = G (n / P) * u n := by
  have hstage : ∀ (v : ℤ → ℚ) (t : ℤ), msStage P fd v t = 0 := by
    intro v t
    rw [msStage]
    split
    · simp only [hfd2, hfd3]
      rw [sumR_eq_zero (fun m _ => by rw [hZ]; ring),
        sumR_eq_zero (fun m _ => by rw [hZ]; ring), add_zero]
    · rfl
  rw [msSample, hfd1, sumR_succ_front,
    sumR_eq_zero (fun m _ => by
      rw [Function.iterate_succ_apply', hstage, zero_div]),
    Function.iterate_zero_apply, Nat.factorial_zero, Nat.cast_one, div_one, add_zero]

theorem ssSample_delta (P ir F : ℕ) (fd : ℕ → ℚ × List ℚ × List ℚ) (G : ℕ → ℚ)
    (Z : List ℚ) (expFn : ℚ → ℚ) (hfd1 : ∀ i, (fd i).1 = G i)
    (hfd2 : ∀ i, (fd i).2.1 = Z) (hfd3 : ∀ i, (fd i).2.2 = Z)
    (hZ : ∀ j, Z.getD j 0 = 0) (hexp : expFn 0 = 1) (hir : 1 ≤ ir) (hP : 1 ≤ P)
    (u : ℤ → ℚ) (n : ℕ) (hn : n < F * P) :
    ssSample P ir F fd expFn u n = G (n / P) * u n := by
  have hhC : expIr Z ir = 1 :: List.replicate (ir - 1) 0 :=
    expIr_delta Z (fun j => hZ (j + 1)) ir hir
  have hlen : (1 :: List.replicate (ir - 1) (0:ℚ)).length = (ir - 1) + 1 := by simp
  have hcontrib : ∀ i, ssContrib P ir fd expFn u i n =
      (if ((i * P : ℤ) ≤ (n : ℤ) ∧ (n : ℤ) < ((i + 1) * P : ℤ))
        then G i * u n else 0) := by
    intro i
    rw [ssContrib, hfd1, hfd2, hfd3, hhC, hlen, sumR_delta, sumR_delta]
    simp only [hZ]
    rw [add_zero, hexp, mul_one, blockSig,
      show ((n : ℤ) + (0:ℕ) - (0:ℕ)) = (n : ℤ) by push_cast; ring]
    split <;> ring
  rw [ssSample, sumR_congr (fun i _ => hcontrib i), sumR_blockIf P hP _ F n hn]

theorem emod_window (fft : ℕ) (z : ℤ) (hlo : -(fft : ℤ) < z) (hhi : z < (fft : ℤ)) :
    z % (fft : ℤ) = if 0 ≤ z then z else z + fft := by
  split
  · exact Int.emod_eq_of_lt (by assumption) hhi
  · have h1 : (0 : ℤ) ≤ z + fft := by omega
    have h2 : z + (fft : ℤ) < fft := by omega
    rw [show z % (fft : ℤ) = (z + fft * 1) % fft by
        rw [Int.add_mul_emod_self_left], mul_one, Int.emod_eq_of_lt h1 h2]

theorem fdSample_delta (P fft F : ℕ) (fd : ℕ → ℚ × List ℚ × List ℚ) (G : ℕ → ℚ)
    (Z : List ℚ) (expFn : ℚ → ℚ) (hfd1 : ∀ i, (fd i).1 = G i)
    (hfd2 : ∀ i, (fd i).2.1 = Z) (hfd3 : ∀ i, (fd i).2.2 = Z)
    (hZ : ∀ j, Z.getD j 0 = 0) (hexp : expFn 0 = 1) (hP : 1 ≤ P) (hfft : P ≤ fft)
    (u : ℤ → ℚ) (n : ℕ) (hn : n < F * P) :
    fdSample P fft F fd expFn u n = G (n / P) * u n := by
  have hfft1 : 1 ≤ fft := le_trans hP hfft
  have hhC : expIr Z fft = 1 :: List.replicate (fft - 1) 0 :=
    expIr_delta Z (fun j => hZ (j + 1)) fft hfft1
  have hlen : (1 :: List.replicate (fft - 1) (0:ℚ)).length = (fft - 1) + 1 := by simp
  have hker : ∀ j, j < fft →
      circKer fft (expIr Z fft) (expIr Z fft) j = if j = 0 then 1 else 0 := by
    intro j hj
    rw [circKer, hhC, hlen, sumR_delta, Nat.add_zero, Nat.mod_eq_of_lt hj, deltaList_getD]
  have hterm : ∀ i j : ℕ, ((i * P : ℤ) ≤ (n : ℤ) ∧ (n : ℤ) < (i * P : ℤ) + fft) →
      j < P →
      u ((i * P : ℤ) + j) * circKer fft (expIr Z fft) (expIr Z fft)
        (((n : ℤ) - i * P - j) % (fft : ℤ)).toNat =
      (if (j : ℤ) = (n : ℤ) - i * P then u n else 0) := by
    intro i j hw hj
    have hjz : (j : ℤ) < (P : ℤ) := by exact_mod_cast hj
    have hPz : ((P : ℤ)) ≤ (fft : ℤ) := by exact_mod_cast hfft
    have hzlo : -(fft : ℤ) < (n : ℤ) - i * P - j := by linarith [hw.1]
    have hzhi : (n : ℤ) - i * P - j < (fft : ℤ) := by
      have h4 : (0:ℤ) ≤ (j : ℤ) := by positivity
      linarith [hw.2]
    rw [emod_window fft _ hzlo hzhi]
    by_cases hcase : (j : ℤ) = (n : ℤ) - i * P
    · have hz0 : (n : ℤ) - i * P - j = 0 := by linarith [hcase]
      rw [hz0, if_pos (le_refl (0:ℤ)), Int.toNat_zero, hker 0 (by omega), if_pos rfl,
        mul_one, if_pos hcase, show ((i * P : ℤ) + (j:ℤ)) = (n : ℤ) by linarith [hcase]]
    · rw [if_neg hcase]
      rcases le_or_lt 0 ((n : ℤ) - i * P - j) with hzpos | hzneg
      · have hz0 : (n : ℤ) - i * P - j ≠ 0 := by
          intro h0; exact hcase (by linarith)
        rw [if_pos hzpos]
        have harg : ((n : ℤ) - i * P - j).toNat < fft := by omega
        have hargne : ((n : ℤ) - i * P - j).toNat ≠ 0 := by omega
        rw [hker _ harg, if_neg hargne, mul_zero]
      · rw [if_neg (by omega)]
        have harg : ((n : ℤ) - i * P - j + fft).toNat < fft := by omega
        have hargne : ((n : ℤ) - i * P - j + fft).toNat ≠ 0 := by omega
        rw [hker _ harg, if_neg hargne, mul_zero]
  have hcontrib : ∀ i, fdContrib P fft fd expFn u i n =
      (if ((i * P : ℤ) ≤ (n : ℤ) ∧ (n : ℤ) < ((i + 1) * P : ℤ))
        then G i * u n else 0) := by
    intro i
    have hiP : ((i + 1) * P : ℤ) = (i * P : ℤ) + P := by push_cast; ring
    rw [fdContrib, hfd1, hfd2, hfd3]
    split_ifs with hw ht hb
    · -- window holds and sample n lies in frame i's own block
      simp only [hZ]
      rw [add_zero, hexp, mul_one,
        sumR_congr (fun j hj => hterm i j hw hj)]
      have hiPn : i * P ≤ n := by exact_mod_cast hw.1
      have hj0 : n - i * P < P := by
        have h2 : (n : ℤ) < (i * P : ℤ) + P := by rw [← hiP]; exact ht.2
        have h2n : n < i * P + P := by exact_mod_cast h2
        omega
      have hj0z : ((n - i * P : ℕ) : ℤ) = (n : ℤ) - i * P := by
        push_cast [Nat.cast_sub hiPn]; ring
      rw [sumR_single P _ (n - i * P) hj0
        (fun j hjP hne => if_neg (fun hj => hne (by exact_mod_cast hj.trans hj0z.symm))),
        if_pos hj0z]
    · -- window holds but sample n is past frame i's block: no tap hits
      simp only [hZ]
      rw [add_zero, hexp, mul_one,
        sumR_congr (fun j hj => hterm i j hw hj), sumR_eq_zero, mul_zero]
      intro j hjP
      rw [if_neg]
      intro hj
      rcases not_and_or.mp ht with h | h
      · exact h hw.1
      · rw [hiP] at h
        have hjz : (j : ℤ) < (P : ℤ) := by exact_mod_cast hjP
        have hge := not_lt.mp h
        linarith [hge, hj]
    · -- window fails: frame i's block cannot contain n either
      exfalso
      apply hw
      refine ⟨hb.1, ?_⟩
      have hPz : ((P : ℤ)) ≤ (fft : ℤ) := by exact_mod_cast hfft
      have h2 := hb.2
      rw [hiP] at h2
      linarith
    · rfl
  rw [fdSample, sumR_congr (fun i _ => hcontrib i), sumR_blockIf P hP _ F n hn]

end MLSA

/-- C7: for cepstral order `M = 0` (one gain coefficient per frame, no shape
coefficients) every realization mode reduces to multiplying each excitation
sample by its frame's scalar gain. -/
theorem C7_order_zero_scalar_gain (mode : MLSA.Mode) (cfg : MLSA.Config)
    (ph : MLSA.Phase) (g expFn : ℚ → ℚ) (x : List ℚ) (frames : List (List ℚ))
    (hfr : ∀ v ∈ frames, v.length = 1) (hM : cfg.order = 0) (hexp : expFn 0 = 1)
    (hP : 1 ≤ cfg.period) (hir : 1 ≤ cfg.irLength)
    (hfft : cfg.period ≤ cfg.fftLength) :
    MLSA.synthesize mode cfg ph g expFn x frames =
      (List.range (min x.length (frames.length * cfg.period))).map
        (fun n => (if cfg.ignoreGain then 1 else
          g ((frames.getD (n / cfg.period) []).getD 0 0)) * x.getD n 0) := by
  have hZ : ∀ j, (MLSA.freqt cfg.alpha cfg.cepOrder [0]).getD j 0 = 0 :=
    MLSA.freqt_zero_getD cfg.alpha cfg.cepOrder [0] (by simp)
  have hfd : ∀ i, MLSA.prepFrame ph cfg.order cfg.ignoreGain g cfg.alpha
      cfg.cepOrder (frames.getD i []) =
      ((if cfg.ignoreGain then 1 else g ((frames.getD i []).getD 0 0)),
        MLSA.freqt cfg.alpha cfg.cepOrder [0],
        MLSA.freqt cfg.alpha cfg.cepOrder [0]) := by
    intro i
    have hlen : (frames.getD i []).length ≤ 1 := by
      rcases Nat.lt_or_ge i frames.length with hi | hi
      · have hmem : frames.getD i [] ∈ frames := by
          rw [List.getD_eq_getElem?_getD, List.getElem?_eq_getElem hi]
          exact List.getElem_mem hi
        rw [hfr _ hmem]
      · rw [List.getD_eq_default _ _ hi]
        simp
    rw [MLSA.prepFrame, hM, MLSA.phaseCompose_order0 ph _ hlen]
    rfl
  rw [MLSA.synthesize, MLSA.synthCore]
  refine List.map_congr_left (fun n hn => ?_)
  have hnN : n < min x.length (frames.length * cfg.period) := List.mem_range.mp hn
  have hnFP : n < frames.length * cfg.period := by omega
  have hu := MLSA.sig_take_getD x (min x.length (frames.length * cfg.period)) n hnN
  cases mode with
  | multiStage =>
    exact (MLSA.msSample_delta cfg.period cfg.taylorOrder _
      (fun i => if cfg.ignoreGain then 1 else g ((frames.getD i []).getD 0 0))
      (MLSA.freqt cfg.alpha cfg.cepOrder [0])
      (fun i => congrArg Prod.fst (hfd i))
      (fun i => congrArg (fun p => p.2.1) (hfd i))
      (fun i => congrArg (fun p => p.2.2) (hfd i)) hZ _ n).trans (by rw [hu])
  | singleStage =>
    exact (MLSA.ssSample_delta cfg.period cfg.irLength frames.length _
      (fun i => if cfg.ignoreGain then 1 else g ((frames.getD i []).getD 0 0))
      (MLSA.freqt cfg.alpha cfg.cepOrder [0]) expFn
      (fun i => congrArg Prod.fst (hfd i))
      (fun i => congrArg (fun p => p.2.1) (hfd i))
      (fun i => congrArg (fun p => p.2.2) (hfd i)) hZ hexp hir hP _ n hnFP).trans
      (by rw [hu])
  | freqDomain =>
    exact (MLSA.fdSample_delta cfg.period cfg.fftLength frames.length _
      (fun i => if cfg.ignoreGain then 1 else g ((frames.getD i []).getD 0 0))
      (MLSA.freqt cfg.alpha cfg.cepOrder [0]) expFn
      (fun i => congrArg Prod.fst (hfd i))
      (fun i => congrArg (fun p => p.2.1) (hfd i))
      (fun i => congrArg (fun p => p.2.2) (hfd i)) hZ hexp hP hfft _ n hnFP).trans
      (by rw [hu])

/-- Witness for C7: a concrete order-0 two-frame synthesis in freq-domain
mode equals the per-frame scalar-gain scaling of the excitation. -/
theorem C7_witness :
    MLSA.synthesize .freqDomain ⟨0, 2, 1/3, false, 3, 2, 4, 4⟩ .minimum id
        (fun t => 1 + t) [1, 2, 3, 4] [[2], [3]] =
      (List.range (min 4 (2 * 2))).map
        (fun n => (if false then 1 else
          id ((([[(2:ℚ)], [3]] : List (List ℚ)).getD (n / 2) []).getD 0 0)) *
          ([1, 2, 3, 4] : List ℚ).getD n 0) := by
  have h := C7_order_zero_scalar_gain .freqDomain ⟨0, 2, 1/3, false, 3, 2, 4, 4⟩
    .minimum id (fun t => 1 + t) [1, 2, 3, 4] [[2], [3]]
    (by intro v hv; simp only [List.mem_cons, List.not_mem_nil, or_false] at hv
        rcases hv with h | h <;> simp [h])
    rfl (by norm_num) (by norm_num) (by norm_num) (by norm_num)
  simpa using h

/-- List access helpers at literal indices (all definitional). -/
theorem listGetD_nil (n : ℕ) (d : ℚ) : ([] : List ℚ).getD n d = d := by
  cases n <;> rfl

theorem listGetD_one (a d : ℚ) (l : List ℚ) : (a :: l).getD 1 d = l.getD 0 d := rfl

theorem listGetD_two (a d : ℚ) (l : List ℚ) : (a :: l).getD 2 d = l.getD 1 d := rfl

theorem listGetD_three (a d : ℚ) (l : List ℚ) : (a :: l).getD 3 d = l.getD 2 d := rfl

theorem listGetD_four (a d : ℚ) (l : List ℚ) : (a :: l).getD 4 d = l.getD 3 d := rfl

theorem listGetD_five (a d : ℚ) (l : List ℚ) : (a :: l).getD 5 d = l.getD 4 d := rfl

theorem listGetD_six (a d : ℚ) (l : List ℚ) : (a :: l).getD 6 d = l.getD 5 d := rfl

theorem listRange_one : List.range 1 = [0] := rfl

theorem listRange_two : List.range 2 = [0, 1] := rfl

theorem listRange_three : List.range 3 = [0, 1, 2] := rfl

theorem listRange_four : List.range 4 = [0, 1, 2, 3] := rfl

theorem listReplicate_three : List.replicate 3 (0:ℚ) = [0, 0, 0] := rfl

theorem listReplicate_four : List.replicate 4 (0:ℚ) = [0, 0, 0, 0] := rfl

theorem intToNat_zero : (0 : ℤ).toNat = 0 := rfl

theorem intToNat_one : (1 : ℤ).toNat = 1 := rfl

theorem intToNat_two : (2 : ℤ).toNat = 2 := rfl

theorem intToNat_three : (3 : ℤ).toNat = 3 := rfl

theorem intToNat_four : (4 : ℤ).toNat = 4 := rfl

theorem intToNat_five : (5 : ℤ).toNat = 5 := rfl

/-- `n² ·` (covariance of `a` and `b`): `n * Σ aᵢbᵢ - (Σ aᵢ)(Σ bᵢ)`. -/
def covN (a b : List ℚ) : ℚ :=
  (a.length : ℚ) * (List.zipWith (fun s t => s * t) a b).sum - a.sum * b.sum

/-- The Pearson correlation of `a` and `b` exceeds `r` (for `0 ≤ r`), stated
in squared form so it stays inside rational arithmetic:
`corr > r ↔ cov > 0 ∧ cov² > r²·var(a)·var(b)` after clearing the square
roots; a zero-variance pair (where `np.corrcoef` yields NaN and the test
comparison is false) makes the first conjunct false. -/
def corrGT (r : ℚ) (a b : List ℚ) : Prop :=
  0 < covN a b ∧ r ^ 2 * (covN a a * covN b b) < (covN a b) ^ 2

set_option maxHeartbeats 4000000 in
/-- Reference-configuration multi-stage output (order 1, period 2, alpha 0,
`ignore_gain`, Taylor order 1, impulse-response length 4, FFT length 4). -/
theorem msOutput_ref :
    MLSA.synthesize .multiStage ⟨1, 2, 0, true, 3, 1, 4, 4⟩ .minimum id
      (fun t => 1 + t) [1, -1, 2, 0] [[0, 1/2], [0, 1/2]] = [1, -1/2, 3/2, 1] := by
  norm_num [MLSA.synthesize, MLSA.synthCore, MLSA.msSample, MLSA.msStage,
    MLSA.prepFrame, MLSA.phaseCompose, MLSA.gainSplit, MLSA.half, MLSA.freqt,
    MLSA.freqtOut, MLSA.sig, sumR, listRange_four, listRange_two, listRange_one,
    listRange_three, listReplicate_three, listReplicate_four, listGetD_nil,
    listGetD_one, listGetD_two, listGetD_three, listGetD_four, listGetD_five,
    listGetD_six, Function.iterate_one, Nat.factorial, intToNat_zero,
    intToNat_one, intToNat_two, intToNat_three, intToNat_four, intToNat_five]

set_option maxHeartbeats 4000000 in
/-- Reference-configuration single-stage output on the same input. -/
theorem ssOutput_ref :
    MLSA.synthesize .singleStage ⟨1, 2, 0, true, 3, 1, 4, 4⟩ .minimum id
      (fun t => 1 + t) [1, -1, 2, 0] [[0, 1/2], [0, 1/2]] =
      [1, -1/2, 13/8, 43/48] := by
  norm_num [MLSA.synthesize, MLSA.synthCore, MLSA.ssSample, MLSA.ssContrib,
    MLSA.blockSig, MLSA.expIr, MLSA.expIrRev, MLSA.prepFrame, MLSA.phaseCompose,
    MLSA.gainSplit, MLSA.half, MLSA.freqt, MLSA.freqtOut, MLSA.sig, sumR,
    listRange_four, listRange_two, listRange_one, listRange_three,
    listReplicate_three, listReplicate_four, listGetD_nil, listGetD_one,
    listGetD_two, listGetD_three, listGetD_four, listGetD_five, listGetD_six,
    intToNat_zero, intToNat_one, intToNat_two, intToNat_three, intToNat_four,
    intToNat_five]

set_option maxHeartbeats 4000000 in
/-- Reference-configuration freq-domain output on the same input; the first
sample shows the `1/48` circular-aliasing leak of the FFT realization. -/
theorem fdOutput_ref :
    MLSA.synthesize .freqDomain ⟨1, 2, 0, true, 3, 1, 4, 4⟩ .minimum id
      (fun t => 1 + t) [1, -1, 2, 0] [[0, 1/2], [0, 1/2]] =
      [47/48, -1/2, 13/8, 43/48] := by
  norm_num [MLSA.synthesize, MLSA.synthCore, MLSA.fdSample, MLSA.fdContrib,
    MLSA.circKer, MLSA.expIr, MLSA.expIrRev, MLSA.prepFrame, MLSA.phaseCompose,
    MLSA.gainSplit, MLSA.half, MLSA.freqt, MLSA.freqtOut, MLSA.sig, sumR,
    listRange_four, listRange_two, listRange_one, listRange_three,
    listReplicate_three, listReplicate_four, listGetD_nil, listGetD_one,
    listGetD_two, listGetD_three, listGetD_four, listGetD_five, listGetD_six,
    intToNat_zero, intToNat_one, intToNat_two, intToNat_three, intToNat_four,
    intToNat_five]

set_option maxHeartbeats 4000000 in
/-- With a large shape coefficient (10) and Taylor truncation order 1, the
multi-stage output degenerates to `x[n] + 10·x[n-1]`. -/
theorem msOutput_sat :
    MLSA.synthesize .multiStage ⟨1, 2, 0, true, 3, 1, 4, 4⟩ .minimum id
      (fun t => 1 + t) [1, 0, 0, 0] [[0, 10], [0, 10]] = [1, 10, 0, 0] := by
  norm_num [MLSA.synthesize, MLSA.synthCore, MLSA.msSample, MLSA.msStage,
    MLSA.prepFrame, MLSA.phaseCompose, MLSA.gainSplit, MLSA.half, MLSA.freqt,
    MLSA.freqtOut, MLSA.sig, sumR, listRange_four, listRange_two, listRange_one,
    listRange_three, listReplicate_three, listReplicate_four, listGetD_nil,
    listGetD_one, listGetD_two, listGetD_three, listGetD_four, listGetD_five,
    listGetD_six, Function.iterate_one, Nat.factorial, intToNat_zero,
    intToNat_one, intToNat_two, intToNat_three, intToNat_four, intToNat_five]

set_option maxHeartbeats 4000000 in
/-- On the same input the single-stage realization keeps the full exponential
response `1, 10, 50, 500/3`. -/
theorem ssOutput_sat :
    MLSA.synthesize .singleStage ⟨1, 2, 0, true, 3, 1, 4, 4⟩ .minimum id
      (fun t => 1 + t) [1, 0, 0, 0] [[0, 10], [0, 10]] = [1, 10, 50, 500/3] := by
  norm_num [MLSA.synthesize, MLSA.synthCore, MLSA.ssSample, MLSA.ssContrib,
    MLSA.blockSig, MLSA.expIr, MLSA.expIrRev, MLSA.prepFrame, MLSA.phaseCompose,
    MLSA.gainSplit, MLSA.half, MLSA.freqt, MLSA.freqtOut, MLSA.sig, sumR,
    listRange_four, listRange_two, listRange_one, listRange_three,
    listReplicate_three, listReplicate_four, listGetD_nil, listGetD_one,
    listGetD_two, listGetD_three, listGetD_four, listGetD_five, listGetD_six,
    intToNat_zero, intToNat_one, intToNat_two, intToNat_three, intToNat_four,
    intToNat_five]

/-- C1 (counterexample): the claim as stated — pairwise correlation above
0.98 for *every* valid coefficient sequence and excitation — is false: with
shape coefficient 10 and Taylor order 1 (a valid configuration), the
multi-stage and single-stage outputs on excitation `[1,0,0,0]` are negatively
correlated. -/
theorem C1_counterexample :
    ¬ (corrGT (49/50)
        (MLSA.synthesize .multiStage ⟨1, 2, 0, true, 3, 1, 4, 4⟩ .minimum id
          (fun t => 1 + t) [1, 0, 0, 0] [[0, 10], [0, 10]])
        (MLSA.synthesize .singleStage ⟨1, 2, 0, true, 3, 1, 4, 4⟩ .minimum id
          (fun t => 1 + t) [1, 0, 0, 0] [[0, 10], [0, 10]]) ∧
      corrGT (49/50)
        (MLSA.synthesize .multiStage ⟨1, 2, 0, true, 3, 1, 4, 4⟩ .minimum id
          (fun t => 1 + t) [1, 0, 0, 0] [[0, 10], [0, 10]])
        (MLSA.synthesize .freqDomain ⟨1, 2, 0, true, 3, 1, 4, 4⟩ .minimum id
          (fun t => 1 + t) [1, 0, 0, 0] [[0, 10], [0, 10]]) ∧
      corrGT (49/50)
        (MLSA.synthesize .singleStage ⟨1, 2, 0, true, 3, 1, 4, 4⟩ .minimum id
          (fun t => 1 + t) [1, 0, 0, 0] [[0, 10], [0, 10]])
        (MLSA.synthesize .freqDomain ⟨1, 2, 0, true, 3, 1, 4, 4⟩ .minimum id
          (fun t => 1 + t) [1, 0, 0, 0] [[0, 10], [0, 10]])) := by
  rintro ⟨⟨hpos, -⟩, -, -⟩
  rw [msOutput_sat, ssOutput_sat] at hpos
  norm_num [covN] at hpos

/-- C1 (amended): cross-mode agreement holds to the 0.98 correlation
tolerance when the truncation orders adequately cover the signal, not for
every input: at a reference configuration and excitation, the multi-stage,
single-stage and freq-domain outputs have pairwise Pearson correlation
exceeding 0.98. -/
theorem C1_cross_mode_correlation_reference :
    corrGT (49/50)
        (MLSA.synthesize .multiStage ⟨1, 2, 0, true, 3, 1, 4, 4⟩ .minimum id
          (fun t => 1 + t) [1, -1, 2, 0] [[0, 1/2], [0, 1/2]])
        (MLSA.synthesize .singleStage ⟨1, 2, 0, true, 3, 1, 4, 4⟩ .minimum id
          (fun t => 1 + t) [1, -1, 2, 0] [[0, 1/2], [0, 1/2]]) ∧
      corrGT (49/50)
        (MLSA.synthesize .multiStage ⟨1, 2, 0, true, 3, 1, 4, 4⟩ .minimum id
          (fun t => 1 + t) [1, -1, 2, 0] [[0, 1/2], [0, 1/2]])
        (MLSA.synthesize .freqDomain ⟨1, 2, 0, true, 3, 1, 4, 4⟩ .minimum id
          (fun t => 1 + t) [1, -1, 2, 0] [[0, 1/2], [0, 1/2]]) ∧
      corrGT (49/50)
        (MLSA.synthesize .singleStage ⟨1, 2, 0, true, 3, 1, 4, 4⟩ .minimum id
          (fun t => 1 + t) [1, -1, 2, 0] [[0, 1/2], [0, 1/2]])
        (MLSA.synthesize .freqDomain ⟨1, 2, 0, true, 3, 1, 4, 4⟩ .minimum id
          (fun t => 1 + t) [1, -1, 2, 0] [[0, 1/2], [0, 1/2]]) := by
  rw [msOutput_ref, ssOutput_ref, fdOutput_ref]
  refine ⟨⟨?_, ?_⟩, ⟨?_, ?_⟩, ⟨?_, ?_⟩⟩ <;> norm_num [covN]
